import Mathlib

/-
  Verification of the csv_parser repository (src/src/lib.rs).

  The Rust source is shallowly embedded below.  Strings are Lean `String`s
  (lists of characters); Rust's `HashMap<String, CsvValue>` is modelled as an
  association list whose `insert` removes any previous binding of the key and
  appends the new one (the observable behaviour of `HashMap::insert`/`get`;
  iteration order of a `HashMap` is unspecified, so no claim depends on entry
  order).  Rust's `f64` values are not modelled bitwise: the `Float` variant
  carries the trimmed source text that `f64::from_str` accepted, which is all
  the claims need (they only speak about which variant is produced).
-/

namespace CsvSpec

/-- Characters with the Unicode White_Space property, the set trimmed by
Rust's `str::trim` (via `char::is_whitespace`). -/
def isRustWhitespace (c : Char) : Bool :=
  let n := c.toNat
  n == 0x09 || n == 0x0A || n == 0x0B || n == 0x0C || n == 0x0D ||
  n == 0x20 || n == 0x85 || n == 0xA0 || n == 0x1680 ||
  (0x2000 ≤ n && n ≤ 0x200A) ||
  n == 0x2028 || n == 0x2029 || n == 0x202F || n == 0x205F || n == 0x3000

/-- Rust `str::trim` on a character list: drop whitespace from both ends. -/
def rustTrimList (l : List Char) : List Char :=
  ((l.dropWhile isRustWhitespace).reverse.dropWhile isRustWhitespace).reverse

/-- Rust `str::trim`. -/
def rustTrim (s : String) : String :=
  ⟨rustTrimList s.data⟩

/-- ASCII decimal digit test, as used by Rust's integer parser. -/
def isAsciiDigit (c : Char) : Bool :=
  48 ≤ c.toNat && c.toNat ≤ 57

/-- Value of a list of ASCII digits read as a decimal numeral. -/
def digitsToNat (l : List Char) : Nat :=
  l.foldl (fun a c => a * 10 + (c.toNat - 48)) 0

/-- Character for a single decimal digit. -/
def digitChar (n : Nat) : Char :=
  Char.ofNat (48 + n)

/-- Decimal digits of `n`, most significant first (fuel-based recursion so the
function reduces definitionally; `fuel = n + 1` always suffices). -/
def natDigitsAux : Nat → Nat → List Char
  | 0, _ => []
  | fuel + 1, n =>
    if n < 10 then [digitChar n]
    else natDigitsAux fuel (n / 10) ++ [digitChar (n % 10)]

/-- Decimal rendering of a natural number, as produced by Rust's
`format!` for the synthetic field names. -/
def natToStr (n : Nat) : String :=
  ⟨natDigitsAux (n + 1) n⟩

/-- The scalar value type of the parser (`enum CsvValue`).  `Float` carries
the accepted source text instead of an `f64` bit pattern. -/
inductive CsvValue where
  | Text : String → CsvValue
  | Integer : Int → CsvValue
  | Float : String → CsvValue
deriving DecidableEq

/-- Embedding of `handle_new_key`: trim the cell; if blank, produce the
synthetic name for 1-based position `len + 1`. -/
def handle_new_key (key : String) (len : Nat) : String :=
  let trimmed_key := rustTrim key
  if trimmed_key = "" then "__" ++ natToStr (len + 1)
  else trimmed_key

/-- Drop a single leading `+` or `-`. -/
def stripSign (l : List Char) : List Char :=
  if l.head? = some '+' ∨ l.head? = some '-' then l.tail else l

/-- Embedding of Rust `i64::from_str`: an optional leading `+` or `-`, then
one or more ASCII digits, and the value must fit in a signed 64-bit range. -/
def parseI64 (s : String) : Option Int :=
  let l := s.data
  let ds := stripSign l
  if ds.isEmpty then none
  else if ds.all isAsciiDigit then
    let v : Int := (if l.head? = some '-' then -1 else 1) * (digitsToNat ds : Int)
    if -(2 : Int) ^ 63 ≤ v ∧ v ≤ 2 ^ 63 - 1 then some v else none
  else none

/-- Exponent part of Rust's `f64` grammar: `e`/`E`, an optional sign, then
one or more digits. -/
def expAccepts (l : List Char) : Bool :=
  match l with
  | e :: rest =>
    (e == 'e' || e == 'E') &&
      (let ds := stripSign rest
       !ds.isEmpty && ds.all isAsciiDigit)
  | [] => false

/-- Number part of Rust's `f64::from_str` grammar (after the optional sign):
`Count '.'? Digit* Exp?` or `'.' Count Exp?`. -/
def isNumberBody (l : List Char) : Bool :=
  let d1 := l.takeWhile isAsciiDigit
  let r1 := l.dropWhile isAsciiDigit
  if d1.isEmpty then
    match r1 with
    | '.' :: r =>
      let d2 := r.takeWhile isAsciiDigit
      let r2 := r.dropWhile isAsciiDigit
      !d2.isEmpty && (r2.isEmpty || expAccepts r2)
    | _ => false
  else
    match r1 with
    | '.' :: r =>
      let r2 := r.dropWhile isAsciiDigit
      r2.isEmpty || expAccepts r2
    | _ => r1.isEmpty || expAccepts r1

/-- The special values accepted by Rust's `f64::from_str` besides numbers:
`inf`, `infinity`, `nan`, ASCII-case-insensitively (after the sign). -/
def isFloatKeyword (l : List Char) : Bool :=
  let lower := l.map Char.toLower
  lower == "inf".data || lower == "infinity".data || lower == "nan".data

/-- Embedding of the acceptance condition of Rust `f64::from_str`:
an optional sign followed by a special value or a number body. -/
def f64Accepts (s : String) : Bool :=
  let b := stripSign s.data
  isFloatKeyword b || isNumberBody b

/-- Embedding of `parse_value`: trim, yield `none` for a blank cell, try
`i64`, try `f64`, fall back to `Text`. -/
def parse_value (value : String) : Option CsvValue :=
  let trimmed_line := rustTrim value
  if trimmed_line = "" then none
  else
    match parseI64 trimmed_line with
    | some integer => some (CsvValue.Integer integer)
    | none =>
      if f64Accepts trimmed_line then some (CsvValue.Float trimmed_line)
      else some (CsvValue.Text trimmed_line)

/-- Embedding of `get_value_field`: the header entry at `index` when present,
otherwise the synthetic name for 1-based position `index + 1`. -/
def get_value_field (fields : List String) (index : Nat) : String :=
  (fields.get? index).getD ("__" ++ natToStr (index + 1))

/-- Model of `HashMap::insert`: remove any existing binding of the key and
add the new one. -/
def insertKV (m : List (String × CsvValue)) (k : String) (v : CsvValue) :
    List (String × CsvValue) :=
  m.filter (fun p => decide (p.1 ≠ k)) ++ [(k, v)]

/-- Model of `HashMap::get`. -/
def lookupKV (m : List (String × CsvValue)) (k : String) : Option CsvValue :=
  match m with
  | [] => none
  | p :: rest => if p.1 = k then some p.2 else lookupKV rest k

/-- Keys of a row mapping. -/
def keysOf (m : List (String × CsvValue)) : List String :=
  m.map (fun p => p.1)

/-- The character loop inside `parse_header`: `keys` and `current_key` are
the loop state; on a separator the accumulated cell is named and pushed. -/
def headerLoop (seperator : Char) :
    List Char → List String → List Char → List String × List Char
  | [], keys, current_key => (keys, current_key)
  | ch :: rest, keys, current_key =>
    if ch = seperator then
      headerLoop seperator rest
        (keys ++ [handle_new_key ⟨current_key⟩ keys.length]) []
    else headerLoop seperator rest keys (current_key ++ [ch])

/-- Embedding of `parse_header`.  The iterator cursor is modelled by also
returning the lines remaining after the consumed prefix.  A line is accepted
as the header exactly when the loop pushed at least one key, i.e. when the
line contains the separator; otherwise the line is skipped. -/
def parse_header (seperator : Char) :
    List String → Option (List String) × List String
  | [] => (none, [])
  | line :: rest =>
    let (keys, current_key) := headerLoop seperator line.data [] []
    if keys.isEmpty then parse_header seperator rest
    else (some (keys ++ [handle_new_key ⟨current_key⟩ keys.length]), rest)

/-- The character loop inside `parse_value_line`: on a separator the
accumulated cell is classified and, unless absent, inserted under the name
resolved for the current index. -/
def rowLoop (seperator : Char) (fields : List String) :
    List Char → List (String × CsvValue) → Nat → List Char →
      List (String × CsvValue)
  | [], values, index, current_value =>
    (match parse_value ⟨current_value⟩ with
     | some value => insertKV values (get_value_field fields index) value
     | none => values)
  | ch :: rest, values, index, current_value =>
    if ch = seperator then
      rowLoop seperator fields rest
        (match parse_value ⟨current_value⟩ with
         | some value => insertKV values (get_value_field fields index) value
         | none => values)
        (index + 1) []
    else rowLoop seperator fields rest values index (current_value ++ [ch])

/-- Embedding of `parse_value_line`. -/
def parse_value_line (line : String) (seperator : Char)
    (fields : List String) : List (String × CsvValue) :=
  rowLoop seperator fields line.data [] 0 []

/-- Split a character list at every occurrence of `sep`; every delimited
substring, including empty ones, becomes one token. -/
def splitSep (sep : Char) : List Char → List (List Char)
  | [] => [[]]
  | c :: rest =>
    if c = sep then [] :: splitSep sep rest
    else
      match splitSep sep rest with
      | [] => [[c]]
      | t :: ts => (c :: t) :: ts

/-- Drop one trailing carriage return (for a `\r\n` line ending). -/
def stripTrailingCR (l : List Char) : List Char :=
  if l.getLast? = some '\r' then l.dropLast else l

/-- Post-processing of newline-split segments as Rust `str::lines` does it:
every segment before the last was newline-terminated, so its trailing `\r`
is dropped; a final empty segment (input ended with a newline) vanishes. -/
def rustLinesAux : List (List Char) → List (List Char)
  | [] => []
  | [last] => if last.isEmpty then [] else [last]
  | p :: rest => stripTrailingCR p :: rustLinesAux rest

/-- Embedding of Rust `str::lines`. -/
def rustLines (s : String) : List String :=
  (rustLinesAux (splitSep '\n' s.data)).map (fun l => ⟨l⟩)

/-- Embedding of `parse_csv`: find the header, then fold over the remaining
lines, trimming each, skipping blanks, and pushing one row per data line. -/
def parse_csv (input : String) (seperator : Char) :
    List (List (String × CsvValue)) :=
  match parse_header seperator (rustLines input) with
  | (some fields, rest) =>
    rest.foldl
      (fun output line =>
        let trimmed_line := rustTrim line
        if trimmed_line = "" then output
        else output ++ [parse_value_line trimmed_line seperator fields])
      []
  | (none, _) => []

/-! Specification-level definitions used to state the claims. -/

/-- Name the tokens of the header line in order: the token at absolute
position `i` is named `handle_new_key` of its content and `i`. -/
def nameTokensFrom (i : Nat) : List (List Char) → List String
  | [] => []
  | t :: ts => handle_new_key ⟨t⟩ i :: nameTokensFrom (i + 1) ts

/-- Prepend pending characters onto the first token of a split. -/
def consHead (cur : List Char) : List (List Char) → List (List Char)
  | [] => [cur]
  | t :: ts => (cur ++ t) :: ts

/-- Token-level restatement of the header character loop: all tokens but the
last are named and accumulated; the last token is the pending cell. -/
def nameLoop (keys : List String) : List (List Char) → List String × List Char
  | [] => (keys, [])
  | [t] => (keys, t)
  | t :: u :: ts => nameLoop (keys ++ [handle_new_key ⟨t⟩ keys.length]) (u :: ts)

/-- Specification form of the header scanner: skip every line that does not
contain the separator; the first line containing it becomes the header, each
separator-delimited token named by position. -/
def headerSpec (sep : Char) : List String → Option (List String) × List String
  | [] => (none, [])
  | line :: rest =>
    if sep ∈ line.data then
      (some (nameTokensFrom 0 (splitSep sep line.data)), rest)
    else headerSpec sep rest

/-- Tokens paired with their absolute positions, starting at `i`. -/
def enumFrom (i : Nat) : List (List Char) → List (Nat × List Char)
  | [] => []
  | t :: ts => (i, t) :: enumFrom (i + 1) ts

/-- One step of row building: classify the token at position `i` and insert
it unless it is absent. -/
def rowStep (fields : List String) (m : List (String × CsvValue)) (i : Nat)
    (tok : List Char) : List (String × CsvValue) :=
  match parse_value ⟨tok⟩ with
  | some value => insertKV m (get_value_field fields i) value
  | none => m

/-- Token-level restatement of the row loop: fold `rowStep` over the
position-annotated tokens. -/
def buildRowP (fields : List String) (m : List (String × CsvValue)) :
    List (Nat × List Char) → List (String × CsvValue)
  | [] => m
  | q :: qs => buildRowP fields (rowStep fields m q.1 q.2) qs

/-- Follows the claim's words: a trimmed string is integer-formatted when it
is an optional leading minus sign followed by one or more digits whose value
fits a signed 64-bit integer (a leading plus sign is not allowed here). -/
def specIntFormat (t : String) : Bool :=
  if t.data.head? = some '-' then
    !t.data.tail.isEmpty && t.data.tail.all isAsciiDigit &&
      decide ((digitsToNat t.data.tail : Int) ≤ 2 ^ 63)
  else
    !t.data.isEmpty && t.data.all isAsciiDigit &&
      decide ((digitsToNat t.data : Int) ≤ 2 ^ 63 - 1)

/-- Follows the claim's words: a floating-point number in standard
decimal/exponent notation, i.e. an optional sign followed by a number body
(no special values). -/
def specDecimalExpFormat (t : String) : Bool :=
  isNumberBody (stripSign t.data)

/-- Integer shape without the range requirement: an optional sign followed
by one or more digits. -/
def signDigitsShape (t : String) : Bool :=
  let ds := stripSign t.data
  !ds.isEmpty && ds.all isAsciiDigit

/-- The mathematical value of a string of integer shape. -/
def signDigitsVal (t : String) : Int :=
  (if t.data.head? = some '-' then -1 else 1) *
    (digitsToNat (stripSign t.data) : Int)

/-! Lemmas about trimming. -/

theorem dropWhile_dropWhile (p : Char → Bool) (l : List Char) :
    List.dropWhile p (List.dropWhile p l) = List.dropWhile p l := by
  induction l with
  | nil => simp [List.dropWhile]
  | cons c cs ih =>
    by_cases h : p c = true
    · simp [List.dropWhile, h, ih]
    · simp [List.dropWhile, h]

theorem head?_dropWhile (p : Char → Bool) (l : List Char) (c : Char)
    (h : (List.dropWhile p l).head? = some c) : p c = false := by
  induction l with
  | nil => simp [List.dropWhile] at h
  | cons d ds ih =>
    by_cases hp : p d = true
    · rw [List.dropWhile_cons, if_pos hp] at h
      exact ih h
    · rw [List.dropWhile_cons, if_neg hp] at h
      simp at h
      subst h
      simpa using hp

theorem getLast?_dropWhile (p : Char → Bool) (l : List Char)
    (h : List.dropWhile p l ≠ []) :
    (List.dropWhile p l).getLast? = l.getLast? := by
  induction l with
  | nil => simp [List.dropWhile] at h
  | cons d ds ih =>
    by_cases hp : p d = true
    · rw [List.dropWhile_cons, if_pos hp] at h ⊢
      have hds : ds ≠ [] := by
        intro he
        rw [he] at h
        simp [List.dropWhile] at h
      rw [ih h]
      cases ds with
      | nil => exact absurd rfl hds
      | cons e es => rw [List.getLast?_cons_cons]
    · rw [List.dropWhile_cons, if_neg hp]

theorem dropWhile_of_head? (p : Char → Bool) (l : List Char) (c : Char)
    (hc : l.head? = some c) (hp : p c = false) : List.dropWhile p l = l := by
  cases l with
  | nil => simp at hc
  | cons d ds =>
    simp at hc
    cases hc
    rw [List.dropWhile_cons, if_neg (by simp [hp])]

theorem dropWhile_of_all_false (p : Char → Bool) (l : List Char)
    (h : ∀ c ∈ l, p c = false) : List.dropWhile p l = l := by
  induction l with
  | nil => rfl
  | cons d ds ih =>
    rw [List.dropWhile_cons, if_neg (by simp [h d (by simp)])]

theorem dropWhile_rev_dropWhile (p : Char → Bool) (l : List Char) :
    List.dropWhile p
        ((List.dropWhile p ((List.dropWhile p l).reverse)).reverse) =
      (List.dropWhile p ((List.dropWhile p l).reverse)).reverse := by
  by_cases hs : List.dropWhile p ((List.dropWhile p l).reverse) = []
  · rw [hs]; simp
  · obtain ⟨c0, hc0⟩ : ∃ c0, (List.dropWhile p l).head? = some c0 := by
      have ha : List.dropWhile p l ≠ [] := by
        intro he
        apply hs
        rw [he]
        simp
      cases hal : List.dropWhile p l with
      | nil => exact absurd hal ha
      | cons x xs => exact ⟨x, rfl⟩
    refine dropWhile_of_head? p _ c0 ?_ (head?_dropWhile p l c0 hc0)
    rw [List.head?_reverse, getLast?_dropWhile p _ hs, List.getLast?_reverse]
    exact hc0

theorem rustTrimList_idem (l : List Char) :
    rustTrimList (rustTrimList l) = rustTrimList l := by
  unfold rustTrimList
  rw [dropWhile_rev_dropWhile, List.reverse_reverse]
  exact dropWhile_rev_dropWhile isRustWhitespace l

theorem rustTrim_idem (s : String) : rustTrim (rustTrim s) = rustTrim s := by
  unfold rustTrim
  rw [rustTrimList_idem]

theorem rustTrimList_of_all (l : List Char)
    (h : ∀ c ∈ l, isRustWhitespace c = false) : rustTrimList l = l := by
  unfold rustTrimList
  rw [dropWhile_of_all_false _ _ h,
    dropWhile_of_all_false _ _ (fun c hc => h c (List.mem_reverse.mp hc)),
    List.reverse_reverse]

theorem rustTrim_data (s : String) : (rustTrim s).data = rustTrimList s.data :=
  rfl

theorem rustTrim_eq_empty_iff (s : String) :
    rustTrim s = "" ↔ rustTrimList s.data = [] := by
  constructor
  · intro h
    have := congrArg String.data h
    simpa [rustTrim] using this
  · intro h
    apply String.ext
    simpa [rustTrim] using h

/-! Lemmas about decimal digits and synthetic names. -/

theorem isAsciiDigit_not_ws (c : Char) (h : isAsciiDigit c = true) :
    isRustWhitespace c = false := by
  simp [isAsciiDigit] at h
  simp [isRustWhitespace]
  omega

theorem isAsciiDigit_digitChar (d : Nat) (h : d < 10) :
    isAsciiDigit (digitChar d) = true := by
  have : d = 0 ∨ d = 1 ∨ d = 2 ∨ d = 3 ∨ d = 4 ∨ d = 5 ∨ d = 6 ∨ d = 7 ∨
      d = 8 ∨ d = 9 := by omega
  rcases this with h | h | h | h | h | h | h | h | h | h <;> subst h <;> decide

theorem natDigitsAux_all_digits (fuel : Nat) :
    ∀ n c, c ∈ natDigitsAux fuel n → isAsciiDigit c = true := by
  induction fuel with
  | zero => intro n c hc; simp [natDigitsAux] at hc
  | succ fuel ih =>
    intro n c hc
    rw [natDigitsAux] at hc
    by_cases h : n < 10
    · rw [if_pos h] at hc
      simp at hc
      rw [hc]
      exact isAsciiDigit_digitChar n h
    · rw [if_neg h] at hc
      rcases List.mem_append.mp hc with h1 | h2
      · exact ih (n / 10) c h1
      · simp at h2
        rw [h2]
        exact isAsciiDigit_digitChar (n % 10) (Nat.mod_lt n (by omega))

theorem natDigitsAux_ne_nil (n : Nat) : natDigitsAux (n + 1) n ≠ [] := by
  rw [natDigitsAux]
  by_cases h : n < 10
  · rw [if_pos h]; simp
  · rw [if_neg h]; simp

theorem synthetic_data (n : Nat) :
    ("__" ++ natToStr n).data = '_' :: '_' :: natDigitsAux (n + 1) n := rfl

theorem synthetic_ne_empty (n : Nat) : ("__" ++ natToStr n) ≠ "" := by
  intro h
  have := congrArg String.data h
  rw [synthetic_data] at this
  simp at this

theorem synthetic_trimmed (n : Nat) :
    rustTrim ("__" ++ natToStr n) = "__" ++ natToStr n := by
  apply String.ext
  rw [rustTrim_data, synthetic_data]
  apply rustTrimList_of_all
  intro c hc
  rcases hc with _ | ⟨_, hc⟩
  · decide
  rcases hc with _ | ⟨_, hc⟩
  · decide
  · exact isAsciiDigit_not_ws c (natDigitsAux_all_digits (n + 1) n c hc)

theorem handle_new_key_props (key : String) (len : Nat) :
    handle_new_key key len ≠ "" ∧
    rustTrim (handle_new_key key len) = handle_new_key key len ∧
    (handle_new_key key len = "__" ++ natToStr (len + 1) ∨
      handle_new_key key len = rustTrim key) := by
  unfold handle_new_key
  by_cases h : rustTrim key = ""
  · rw [if_pos h]
    exact ⟨synthetic_ne_empty _, synthetic_trimmed _, Or.inl rfl⟩
  · rw [if_neg h]
    exact ⟨h, rustTrim_idem key, Or.inr rfl⟩

/-! Lemmas about splitting on the separator. -/

theorem splitSep_ne_nil (sep : Char) (l : List Char) : splitSep sep l ≠ [] := by
  cases l with
  | nil => simp [splitSep]
  | cons c rest =>
    rw [splitSep]
    by_cases h : c = sep
    · rw [if_pos h]; simp
    · rw [if_neg h]
      cases splitSep sep rest <;> simp

theorem splitSep_of_not_mem (sep : Char) (l : List Char) (h : sep ∉ l) :
    splitSep sep l = [l] := by
  induction l with
  | nil => rfl
  | cons c rest ih =>
    rw [splitSep, if_neg (by intro he; exact h (he ▸ List.mem_cons_self c rest)),
      ih (fun hm => h (List.mem_cons_of_mem c hm))]

theorem splitSep_of_mem (sep : Char) (l : List Char) (h : sep ∈ l) :
    ∃ t ts, splitSep sep l = t :: ts ∧ ts ≠ [] := by
  induction l with
  | nil => simp at h
  | cons c rest ih =>
    rw [splitSep]
    by_cases hc : c = sep
    · rw [if_pos hc]
      cases hr : splitSep sep rest with
      | nil => exact absurd hr (splitSep_ne_nil sep rest)
      | cons t ts => exact ⟨[], t :: ts, rfl, by simp⟩
    · rw [if_neg hc]
      have hmem : sep ∈ rest := by
        cases List.mem_cons.mp h with
        | inl he => exact absurd he.symm hc
        | inr hm => exact hm
      obtain ⟨t, ts, hts, hne⟩ := ih hmem
      rw [hts]
      exact ⟨c :: t, ts, rfl, hne⟩

/-! The header loop is the token-level naming pass. -/

theorem headerLoop_eq_nameLoop (sep : Char) (l : List Char) :
    ∀ keys cur, headerLoop sep l keys cur =
      nameLoop keys (consHead cur (splitSep sep l)) := by
  induction l with
  | nil =>
    intro keys cur
    simp [headerLoop, splitSep, consHead, nameLoop]
  | cons c rest ih =>
    intro keys cur
    rw [headerLoop]
    by_cases hc : c = sep
    · rw [if_pos hc, ih, splitSep, if_pos hc]
      cases hr : splitSep sep rest with
      | nil => exact absurd hr (splitSep_ne_nil sep rest)
      | cons t ts =>
        simp only [consHead, nameLoop, List.append_nil, List.nil_append]
    · rw [if_neg hc, ih, splitSep, if_neg hc]
      cases hr : splitSep sep rest with
      | nil => exact absurd hr (splitSep_ne_nil sep rest)
      | cons t ts =>
        simp only [consHead, List.append_assoc, List.singleton_append]

theorem nameLoop_concat (ts : List (List Char)) (t : List Char) :
    ∀ keys, nameLoop keys (ts ++ [t]) =
      (keys ++ nameTokensFrom keys.length ts, t) := by
  induction ts with
  | nil => intro keys; simp [nameLoop, nameTokensFrom]
  | cons u ts ih =>
    intro keys
    cases hts : ts ++ [t] with
    | nil => simp at hts
    | cons v vs =>
      rw [List.cons_append, hts, nameLoop, ← hts, ih]
      simp [nameTokensFrom, nameTokensFrom]

theorem nameTokensFrom_length (i : Nat) (ts : List (List Char)) :
    (nameTokensFrom i ts).length = ts.length := by
  induction ts generalizing i with
  | nil => rfl
  | cons t ts ih => simp [nameTokensFrom, ih]

theorem nameTokensFrom_concat (i : Nat) (ts : List (List Char))
    (t : List Char) :
    nameTokensFrom i (ts ++ [t]) =
      nameTokensFrom i ts ++ [handle_new_key ⟨t⟩ (i + ts.length)] := by
  induction ts generalizing i with
  | nil => simp [nameTokensFrom]
  | cons u ts ih =>
    rw [List.cons_append, nameTokensFrom, nameTokensFrom, ih, List.cons_append]
    have h1 : i + 1 + ts.length = i + (u :: ts).length := by
      simp
      omega
    rw [h1]

theorem parse_header_eq_headerSpec (sep : Char) (lines : List String) :
    parse_header sep lines = headerSpec sep lines := by
  induction lines with
  | nil => rfl
  | cons line rest ih =>
    rw [parse_header, headerSpec, headerLoop_eq_nameLoop]
    by_cases hmem : sep ∈ line.data
    · rw [if_pos hmem]
      obtain ⟨t, ts, hts, hne⟩ := splitSep_of_mem sep line.data hmem
      obtain ⟨ts0, t0, hts0⟩ := (ts.eq_nil_or_concat).resolve_left hne
      rw [List.concat_eq_append] at hts0
      subst hts0
      rw [hts]
      have hcons : consHead [] (t :: (ts0 ++ [t0])) = (t :: ts0) ++ [t0] := by
        simp [consHead]
      rw [hcons, nameLoop_concat]
      dsimp only
      rw [if_neg (by simp [nameTokensFrom])]
      rw [show (t :: (ts0 ++ [t0])) = (t :: ts0) ++ [t0] from rfl,
        nameTokensFrom_concat]
      simp [nameTokensFrom_length]
    · rw [if_neg hmem, splitSep_of_not_mem sep line.data hmem]
      simp only [consHead, nameLoop, List.append_nil]
      simpa using ih

/-! Lemmas about the row mapping. -/

theorem lookupKV_insertKV_self (m : List (String × CsvValue)) (k : String)
    (v : CsvValue) : lookupKV (insertKV m k v) k = some v := by
  unfold insertKV
  induction m with
  | nil => simp [lookupKV]
  | cons p rest ih =>
    by_cases hp : p.1 = k
    · rw [List.filter_cons, if_neg (by simp [hp])]
      exact ih
    · rw [List.filter_cons, if_pos (by simp [hp]), List.cons_append, lookupKV,
        if_neg hp]
      exact ih

theorem lookupKV_insertKV_ne (m : List (String × CsvValue)) (k k0 : String)
    (v : CsvValue) (hne : k0 ≠ k) :
    lookupKV (insertKV m k v) k0 = lookupKV m k0 := by
  unfold insertKV
  induction m with
  | nil =>
    show lookupKV [(k, v)] k0 = none
    rw [lookupKV, if_neg (fun h => hne h.symm)]
    rfl
  | cons p rest ih =>
    by_cases hp : p.1 = k
    · rw [List.filter_cons, if_neg (by simp [hp]), lookupKV,
        if_neg (by rw [hp]; exact fun h => hne h.symm)]
      exact ih
    · rw [List.filter_cons, if_pos (by simp [hp]), List.cons_append, lookupKV,
        lookupKV]
      by_cases hk0 : p.1 = k0
      · rw [if_pos hk0, if_pos hk0]
      · rw [if_neg hk0, if_neg hk0]
        exact ih

theorem mem_insertKV (m : List (String × CsvValue)) (k : String)
    (v : CsvValue) (p : String × CsvValue) (h : p ∈ insertKV m k v) :
    p ∈ m ∨ p = (k, v) := by
  unfold insertKV at h
  rcases List.mem_append.mp h with h1 | h2
  · exact Or.inl (List.mem_of_mem_filter h1)
  · simp at h2
    exact Or.inr h2

theorem mem_keysOf_insertKV (m : List (String × CsvValue)) (k k0 : String)
    (v : CsvValue) :
    k0 ∈ keysOf (insertKV m k v) ↔ k0 = k ∨ k0 ∈ keysOf m := by
  unfold insertKV keysOf
  rw [List.map_append, List.mem_append]
  simp only [List.map_cons, List.map_nil, List.mem_singleton]
  constructor
  · intro h
    rcases h with h | h
    · rcases List.mem_map.mp h with ⟨p, hp, hk⟩
      exact Or.inr (List.mem_map.mpr ⟨p, List.mem_of_mem_filter hp, hk⟩)
    · exact Or.inl h
  · intro h
    rcases h with h | h
    · exact Or.inr h
    · by_cases hcase : k0 = k
      · exact Or.inr hcase
      · rcases List.mem_map.mp h with ⟨p, hp, hk⟩
        refine Or.inl (List.mem_map.mpr ⟨p, List.mem_filter.mpr ⟨hp, ?_⟩, hk⟩)
        simp only [decide_eq_true_eq]
        rw [hk]
        exact hcase

/-! The row loop is the token-level fold. -/

theorem rowLoop_eq_buildRowP (sep : Char) (fields : List String)
    (l : List Char) :
    ∀ m idx cur, rowLoop sep fields l m idx cur =
      buildRowP fields m (enumFrom idx (consHead cur (splitSep sep l))) := by
  induction l with
  | nil =>
    intro m idx cur
    simp [rowLoop, splitSep, consHead, enumFrom, buildRowP, rowStep]
  | cons c rest ih =>
    intro m idx cur
    rw [rowLoop]
    by_cases hc : c = sep
    · rw [if_pos hc, ih, splitSep, if_pos hc]
      cases hr : splitSep sep rest with
      | nil => exact absurd hr (splitSep_ne_nil sep rest)
      | cons t ts =>
        simp only [consHead, enumFrom, buildRowP, rowStep, List.append_nil,
          List.nil_append]
    · rw [if_neg hc, ih, splitSep, if_neg hc]
      cases hr : splitSep sep rest with
      | nil => exact absurd hr (splitSep_ne_nil sep rest)
      | cons t ts =>
        simp only [consHead, List.append_assoc, List.singleton_append]

theorem parse_value_line_eq (line : String) (sep : Char)
    (fields : List String) :
    parse_value_line line sep fields =
      buildRowP fields [] (enumFrom 0 (splitSep sep line.data)) := by
  unfold parse_value_line
  rw [rowLoop_eq_buildRowP]
  cases hr : splitSep sep line.data with
  | nil => exact absurd hr (splitSep_ne_nil sep line.data)
  | cons t ts => simp [consHead]

theorem buildRowP_lookup_unchanged (fields : List String) (k : String) :
    ∀ (qs : List (Nat × List Char)) (m : List (String × CsvValue)),
      (∀ q ∈ qs, get_value_field fields q.1 = k → parse_value ⟨q.2⟩ = none) →
      lookupKV (buildRowP fields m qs) k = lookupKV m k := by
  intro qs
  induction qs with
  | nil => intro m h; rfl
  | cons q qs ih =>
    intro m h
    rw [buildRowP]
    rw [ih _ (fun q2 hq2 => h q2 (List.mem_cons_of_mem q hq2))]
    unfold rowStep
    cases hv : parse_value ⟨q.2⟩ with
    | none => rfl
    | some v =>
      have hk : get_value_field fields q.1 ≠ k := by
        intro he
        rw [h q (List.mem_cons_self q qs) he] at hv
        cases hv
      exact lookupKV_insertKV_ne m (get_value_field fields q.1) k v
        (fun he => hk he.symm)

theorem mem_keysOf_buildRowP (fields : List String) (k : String) :
    ∀ (qs : List (Nat × List Char)) (m : List (String × CsvValue)),
      k ∈ keysOf (buildRowP fields m qs) ↔
        k ∈ keysOf m ∨ ∃ q ∈ qs, (parse_value ⟨q.2⟩).isSome = true ∧
          get_value_field fields q.1 = k := by
  intro qs
  induction qs with
  | nil =>
    intro m
    simp [buildRowP]
  | cons q qs ih =>
    intro m
    rw [buildRowP, ih]
    unfold rowStep
    cases hv : parse_value ⟨q.2⟩ with
    | none =>
      constructor
      · intro h
        rcases h with h | ⟨q2, hq2, hs, hk⟩
        · exact Or.inl h
        · exact Or.inr ⟨q2, List.mem_cons_of_mem q hq2, hs, hk⟩
      · intro h
        rcases h with h | ⟨q2, hq2, hs, hk⟩
        · exact Or.inl h
        · rcases List.mem_cons.mp hq2 with he | hm
          · subst he
            rw [hv] at hs
            cases hs
          · exact Or.inr ⟨q2, hm, hs, hk⟩
    | some v =>
      rw [mem_keysOf_insertKV]
      constructor
      · intro h
        rcases h with (h | h) | ⟨q2, hq2, hs, hk⟩
        · exact Or.inr ⟨q, List.mem_cons_self q qs, by rw [hv]; rfl, h.symm⟩
        · exact Or.inl h
        · exact Or.inr ⟨q2, List.mem_cons_of_mem q hq2, hs, hk⟩
      · intro h
        rcases h with h | ⟨q2, hq2, hs, hk⟩
        · exact Or.inl (Or.inr h)
        · rcases List.mem_cons.mp hq2 with he | hm
          · subst he
            exact Or.inl (Or.inl hk.symm)
          · exact Or.inr ⟨q2, hm, hs, hk⟩

theorem mem_buildRowP (fields : List String) (p : String × CsvValue) :
    ∀ (qs : List (Nat × List Char)) (m : List (String × CsvValue)),
      p ∈ buildRowP fields m qs →
      p ∈ m ∨ ∃ q ∈ qs, parse_value ⟨q.2⟩ = some p.2 ∧
        p.1 = get_value_field fields q.1 := by
  intro qs
  induction qs with
  | nil => intro m h; exact Or.inl h
  | cons q qs ih =>
    intro m h
    rw [buildRowP] at h
    rcases ih _ h with h1 | ⟨q2, hq2, hv, hk⟩
    · unfold rowStep at h1
      cases hv : parse_value ⟨q.2⟩ with
      | none =>
        rw [hv] at h1
        exact Or.inl h1
      | some v =>
        rw [hv] at h1
        rcases mem_insertKV _ _ _ _ h1 with h2 | h2
        · exact Or.inl h2
        · subst h2
          exact Or.inr ⟨q, List.mem_cons_self q qs, hv, rfl⟩
    · exact Or.inr ⟨q2, List.mem_cons_of_mem q hq2, hv, hk⟩

theorem buildRowP_filter_isSome (fields : List String) :
    ∀ (qs : List (Nat × List Char)) (m : List (String × CsvValue)),
      buildRowP fields m qs =
        buildRowP fields m
          (qs.filter (fun q => (parse_value ⟨q.2⟩).isSome)) := by
  intro qs
  induction qs with
  | nil => intro m; rfl
  | cons q qs ih =>
    intro m
    rw [buildRowP, List.filter_cons]
    cases hv : parse_value ⟨q.2⟩ with
    | none =>
      rw [if_neg (by simp [hv])]
      rw [← ih]
      unfold rowStep
      rw [hv]
    | some v =>
      rw [if_pos (by simp [hv]), buildRowP, ← ih]

/-! Lemmas about position-annotated tokens. -/

theorem mem_enumFrom (qs : List (List Char)) :
    ∀ i q, q ∈ enumFrom i qs → i ≤ q.1 ∧ q.1 < i + qs.length := by
  induction qs with
  | nil => intro i q h; simp [enumFrom] at h
  | cons t ts ih =>
    intro i q h
    rw [enumFrom] at h
    rcases List.mem_cons.mp h with he | hm
    · subst he
      simp
    · have := ih (i + 1) q hm
      constructor
      · omega
      · simp
        omega

theorem enumFrom_get_mem (ts : List (List Char)) :
    ∀ i j (h : j < ts.length), (i + j, ts.get ⟨j, h⟩) ∈ enumFrom i ts := by
  induction ts with
  | nil => intro i j h; simp at h
  | cons t ts ih =>
    intro i j h
    cases j with
    | zero => simp [enumFrom]
    | succ j =>
      rw [enumFrom]
      refine List.mem_cons_of_mem _ ?_
      have := ih (i + 1) j (by simpa using h)
      have harith : i + 1 + j = i + (j + 1) := by omega
      rw [harith] at this
      simpa using this

/-! Lemmas about value classification. -/

theorem takeWhile_all_eq (p : Char → Bool) (l : List Char)
    (h : l.all p = true) : l.takeWhile p = l := by
  induction l with
  | nil => rfl
  | cons c cs ih =>
    simp at h
    rw [List.takeWhile_cons, if_pos h.1, ih (by simpa using h.2)]

theorem dropWhile_all_eq (p : Char → Bool) (l : List Char)
    (h : l.all p = true) : l.dropWhile p = [] := by
  induction l with
  | nil => rfl
  | cons c cs ih =>
    simp at h
    rw [List.dropWhile_cons, if_pos h.1]
    exact ih (by simpa using h.2)

theorem digit_ne_plus (c : Char) (h : isAsciiDigit c = true) : c ≠ '+' := by
  intro he
  subst he
  exact absurd h (by decide)

theorem digit_ne_minus (c : Char) (h : isAsciiDigit c = true) : c ≠ '-' := by
  intro he
  subst he
  exact absurd h (by decide)

theorem stripSign_of_digits (l : List Char) (hne : l ≠ [])
    (h : l.all isAsciiDigit = true) : stripSign l = l := by
  cases l with
  | nil => exact absurd rfl hne
  | cons c cs =>
    simp at h
    unfold stripSign
    rw [if_neg]
    intro hor
    rcases hor with hp | hm
    · simp at hp
      exact digit_ne_plus c h.1 hp
    · simp at hm
      exact digit_ne_minus c h.1 hm

theorem digits_isNumberBody (ds : List Char) (h1 : ds ≠ [])
    (h2 : ds.all isAsciiDigit = true) : isNumberBody ds = true := by
  unfold isNumberBody
  rw [takeWhile_all_eq _ _ h2, dropWhile_all_eq _ _ h2]
  cases ds with
  | nil => exact absurd rfl h1
  | cons c cs => simp

theorem isNumberBody_nil : isNumberBody [] = false := by decide

theorem bnot_isEmpty_true (l : List Char) (h : (!l.isEmpty) = true) :
    l ≠ [] ∧ ¬ l.isEmpty = true := by
  cases l with
  | nil => exact absurd h (by decide)
  | cons c cs => exact ⟨by simp, by simp⟩

theorem parseI64_of_inrange (t : String) (hs : signDigitsShape t = true)
    (h1 : -(2 : Int) ^ 63 ≤ signDigitsVal t)
    (h2 : signDigitsVal t ≤ 2 ^ 63 - 1) :
    parseI64 t = some (signDigitsVal t) := by
  unfold signDigitsShape at hs
  simp only [Bool.and_eq_true] at hs
  unfold parseI64
  rw [if_neg (bnot_isEmpty_true _ hs.1).2, if_pos hs.2, if_pos ⟨h1, h2⟩]
  rfl

theorem parseI64_none_of_overflow (t : String) (hs : signDigitsShape t = true)
    (hover : signDigitsVal t < -(2 : Int) ^ 63 ∨
      (2 : Int) ^ 63 - 1 < signDigitsVal t) :
    parseI64 t = none := by
  unfold signDigitsShape at hs
  simp only [Bool.and_eq_true] at hs
  unfold parseI64
  rw [if_neg (bnot_isEmpty_true _ hs.1).2, if_pos hs.2, if_neg]
  intro hr
  rcases hover with h | h
  · exact absurd hr.1 (by unfold signDigitsVal at h; omega)
  · exact absurd hr.2 (by unfold signDigitsVal at h; omega)

theorem parseI64_some_inv (t : String) (n : Int)
    (h : parseI64 t = some n) :
    stripSign t.data ≠ [] ∧ (stripSign t.data).all isAsciiDigit = true ∧
      n = signDigitsVal t ∧ -(2 : Int) ^ 63 ≤ n ∧ n ≤ 2 ^ 63 - 1 := by
  unfold parseI64 at h
  by_cases he : (stripSign t.data).isEmpty = true
  · rw [if_pos he] at h
    cases h
  · rw [if_neg he] at h
    by_cases hd : (stripSign t.data).all isAsciiDigit = true
    · rw [if_pos hd] at h
      by_cases hr : -(2 : Int) ^ 63 ≤
            (if t.data.head? = some '-' then (-1 : Int) else 1) *
              (digitsToNat (stripSign t.data) : Int) ∧
          (if t.data.head? = some '-' then (-1 : Int) else 1) *
              (digitsToNat (stripSign t.data) : Int) ≤ 2 ^ 63 - 1
      · rw [if_pos hr] at h
        have hn : n = signDigitsVal t := by
          cases h
          rfl
        refine ⟨by simpa using he, hd, hn, ?_, ?_⟩
        · rw [hn]; exact hr.1
        · rw [hn]; exact hr.2
      · rw [if_neg hr] at h
        cases h
    · rw [if_neg hd] at h
      cases h

theorem parseI64_empty : parseI64 "" = none := by decide

/-- Unfolding of `parse_value` on a blank cell. -/
theorem parse_value_blank (s : String) (h : rustTrim s = "") :
    parse_value s = none := by
  unfold parse_value
  rw [if_pos h]

theorem parse_value_int_iff (s : String) (n : Int) :
    parse_value s = some (CsvValue.Integer n) ↔
      parseI64 (rustTrim s) = some n := by
  constructor
  · intro h
    unfold parse_value at h
    by_cases he : rustTrim s = ""
    · rw [if_pos he] at h
      cases h
    · rw [if_neg he] at h
      cases hp : parseI64 (rustTrim s) with
      | some m =>
        rw [hp] at h
        simp at h
        rw [h]
      | none =>
        rw [hp] at h
        by_cases hf : f64Accepts (rustTrim s) = true
        · rw [if_pos hf] at h
          cases h
        · rw [if_neg hf] at h
          cases h
  · intro h
    have he : rustTrim s ≠ "" := by
      intro he
      rw [he, parseI64_empty] at h
      cases h
    unfold parse_value
    rw [if_neg he, h]

theorem parse_value_float_pos (s : String) (he : rustTrim s ≠ "")
    (hp : parseI64 (rustTrim s) = none)
    (hf : f64Accepts (rustTrim s) = true) :
    parse_value s = some (CsvValue.Float (rustTrim s)) := by
  unfold parse_value
  rw [if_neg he, hp, if_pos hf]

theorem parse_value_text_pos (s : String) (he : rustTrim s ≠ "")
    (hp : parseI64 (rustTrim s) = none)
    (hf : f64Accepts (rustTrim s) = false) :
    parse_value s = some (CsvValue.Text (rustTrim s)) := by
  unfold parse_value
  rw [if_neg he, hp, if_neg (by simp [hf])]

theorem parse_value_isSome (s : String) (he : rustTrim s ≠ "") :
    ∃ v, parse_value s = some v := by
  unfold parse_value
  rw [if_neg he]
  cases parseI64 (rustTrim s) with
  | some n => exact ⟨CsvValue.Integer n, rfl⟩
  | none =>
    by_cases hf : f64Accepts (rustTrim s) = true
    · rw [if_pos hf]
      exact ⟨CsvValue.Float (rustTrim s), rfl⟩
    · rw [if_neg hf]
      exact ⟨CsvValue.Text (rustTrim s), rfl⟩

theorem parse_value_text_inv (s : String) (t : String)
    (h : parse_value s = some (CsvValue.Text t)) :
    t = rustTrim s ∧ rustTrim s ≠ "" := by
  unfold parse_value at h
  by_cases he : rustTrim s = ""
  · rw [if_pos he] at h
    cases h
  · rw [if_neg he] at h
    cases hp : parseI64 (rustTrim s) with
    | some m =>
      rw [hp] at h
      cases h
    | none =>
      rw [hp] at h
      by_cases hf : f64Accepts (rustTrim s) = true
      · rw [if_pos hf] at h
        cases h
      · rw [if_neg hf] at h
        simp at h
        exact ⟨h.symm, he⟩

theorem specDecimalExpFormat_f64Accepts (t : String)
    (h : specDecimalExpFormat t = true) : f64Accepts t = true := by
  unfold specDecimalExpFormat at h
  show (isFloatKeyword (stripSign t.data) ||
    isNumberBody (stripSign t.data)) = true
  rw [h]
  simp

theorem parseI64_some_specDecimal (t : String) (n : Int)
    (h : parseI64 t = some n) : specDecimalExpFormat t = true := by
  obtain ⟨hne, hall, _, _, _⟩ := parseI64_some_inv t n h
  unfold specDecimalExpFormat
  exact digits_isNumberBody _ hne hall

theorem signDigitsShape_f64Accepts (t : String)
    (h : signDigitsShape t = true) : f64Accepts t = true := by
  unfold signDigitsShape at h
  simp only [Bool.and_eq_true] at h
  show (isFloatKeyword (stripSign t.data) ||
    isNumberBody (stripSign t.data)) = true
  rw [digits_isNumberBody _ (bnot_isEmpty_true _ h.1).1 h.2]
  simp

theorem specIntFormat_parseI64 (t : String) (h : specIntFormat t = true) :
    parseI64 t = some (signDigitsVal t) := by
  have hcast : (0 : Int) ≤ (digitsToNat (stripSign t.data) : Int) :=
    Int.natCast_nonneg _
  have h63 : (0 : Int) ≤ 2 ^ 63 - 1 := by norm_num
  by_cases hneg : t.data.head? = some '-'
  · rw [specIntFormat, if_pos hneg] at h
    simp only [Bool.and_eq_true, decide_eq_true_eq] at h
    obtain ⟨⟨hne, hall⟩, hle⟩ := h
    have hstrip : stripSign t.data = t.data.tail := by
      unfold stripSign
      rw [if_pos (Or.inr hneg)]
    have hshape : signDigitsShape t = true := by
      show (!(stripSign t.data).isEmpty &&
        (stripSign t.data).all isAsciiDigit) = true
      rw [hstrip, hne, hall]
      rfl
    have hval : signDigitsVal t =
        -(digitsToNat (stripSign t.data) : Int) := by
      unfold signDigitsVal
      rw [if_pos hneg]
      ring
    refine parseI64_of_inrange t hshape ?_ ?_
    · rw [hval]
      rw [hstrip] at *
      linarith
    · rw [hval]
      linarith
  · rw [specIntFormat, if_neg hneg] at h
    simp only [Bool.and_eq_true, decide_eq_true_eq] at h
    obtain ⟨⟨hne, hall⟩, hle⟩ := h
    have hne2 : t.data ≠ [] := (bnot_isEmpty_true _ hne).1
    have hstrip : stripSign t.data = t.data := stripSign_of_digits _ hne2 hall
    have hshape : signDigitsShape t = true := by
      show (!(stripSign t.data).isEmpty &&
        (stripSign t.data).all isAsciiDigit) = true
      rw [hstrip, hne, hall]
      rfl
    have hval : signDigitsVal t = (digitsToNat (stripSign t.data) : Int) := by
      unfold signDigitsVal
      rw [if_neg hneg]
      ring
    refine parseI64_of_inrange t hshape ?_ ?_
    · rw [hval]
      linarith
    · rw [hval]
      rw [hstrip] at *
      linarith

/-! Lemmas about the orchestrator. -/

theorem foldl_rows (sep : Char) (fields : List String) :
    ∀ (ls : List String) (acc : List (List (String × CsvValue))),
      List.foldl
        (fun output line =>
          let trimmed_line := rustTrim line
          if trimmed_line = "" then output
          else output ++ [parse_value_line trimmed_line sep fields]) acc ls =
      acc ++ (ls.filter (fun l => decide (rustTrim l ≠ ""))).map
        (fun l => parse_value_line (rustTrim l) sep fields) := by
  intro ls
  induction ls with
  | nil => intro acc; simp
  | cons l ls ih =>
    intro acc
    rw [List.foldl_cons]
    by_cases h : rustTrim l = ""
    · have hstep :
          (let trimmed_line := rustTrim l
           ; if trimmed_line = "" then acc
             else acc ++ [parse_value_line trimmed_line sep fields]) =
          acc := by
        show (if rustTrim l = "" then acc
          else acc ++ [parse_value_line (rustTrim l) sep fields]) = acc
        rw [if_pos h]
      rw [hstep, ih, List.filter_cons,
        if_neg ((by simp [h] : ¬ (decide (rustTrim l ≠ "") = true)))]
    · have hstep :
          (let trimmed_line := rustTrim l
           ; if trimmed_line = "" then acc
             else acc ++ [parse_value_line trimmed_line sep fields]) =
          acc ++ [parse_value_line (rustTrim l) sep fields] := by
        show (if rustTrim l = "" then acc
          else acc ++ [parse_value_line (rustTrim l) sep fields]) =
          acc ++ [parse_value_line (rustTrim l) sep fields]
        rw [if_neg h]
      rw [hstep, ih, List.filter_cons,
        if_pos ((by simp [h] : decide (rustTrim l ≠ "") = true))]
      simp

theorem parse_csv_rows (input : String) (sep : Char) (fields : List String)
    (rest : List String)
    (h : parse_header sep (rustLines input) = (some fields, rest)) :
    parse_csv input sep =
      (rest.filter (fun l => decide (rustTrim l ≠ ""))).map
        (fun l => parse_value_line (rustTrim l) sep fields) := by
  unfold parse_csv
  rw [h]
  exact foldl_rows sep fields rest []

theorem parse_csv_of_none (input : String) (sep : Char)
    (h : (parse_header sep (rustLines input)).1 = none) :
    parse_csv input sep = [] := by
  unfold parse_csv
  rcases hph : parse_header sep (rustLines input) with ⟨o, r⟩
  rw [hph] at h
  cases o with
  | none => rfl
  | some fields => cases h

theorem mem_parse_csv (input : String) (sep : Char)
    (row : List (String × CsvValue)) (h : row ∈ parse_csv input sep) :
    ∃ fields rest line, parse_header sep (rustLines input) =
        (some fields, rest) ∧ line ∈ rest ∧ rustTrim line ≠ "" ∧
      row = parse_value_line (rustTrim line) sep fields := by
  rcases hph : parse_header sep (rustLines input) with ⟨o, r⟩
  cases o with
  | none =>
    rw [parse_csv_of_none input sep (by rw [hph])] at h
    cases h
  | some fields =>
    rw [parse_csv_rows input sep fields r hph] at h
    rcases List.mem_map.mp h with ⟨line, hline, heq⟩
    rcases List.mem_filter.mp hline with ⟨hmem, hq⟩
    exact ⟨fields, r, line, rfl, hmem, of_decide_eq_true hq, heq.symm⟩

/-! Inversion lemmas for the header specification. -/

theorem headerSpec_none_iff (sep : Char) (lines : List String) :
    (headerSpec sep lines).1 = none ↔ ∀ line ∈ lines, sep ∉ line.data := by
  induction lines with
  | nil => simp [headerSpec]
  | cons line rest ih =>
    rw [headerSpec]
    by_cases hmem : sep ∈ line.data
    · rw [if_pos hmem]
      simp
      exact fun h => absurd hmem h
    · rw [if_neg hmem]
      rw [ih]
      constructor
      · intro h l hl
        rcases List.mem_cons.mp hl with he | hm
        · subst he; exact hmem
        · exact h l hm
      · intro h l hl
        exact h l (List.mem_cons_of_mem line hl)

theorem headerSpec_some_inv (sep : Char) (lines : List String)
    (H : List String) (rest : List String)
    (h : headerSpec sep lines = (some H, rest)) :
    ∃ line : String, sep ∈ line.data ∧
      H = nameTokensFrom 0 (splitSep sep line.data) := by
  induction lines with
  | nil => cases h
  | cons line ls ih =>
    rw [headerSpec] at h
    by_cases hmem : sep ∈ line.data
    · rw [if_pos hmem] at h
      refine ⟨line, hmem, ?_⟩
      have := (Prod.mk.injEq _ _ _ _).mp h
      have h2 := this.1
      simp at h2
      rw [h2]
    · rw [if_neg hmem] at h
      exact ih h

theorem mem_nameTokensFrom (f : String) (ts : List (List Char)) :
    ∀ i, f ∈ nameTokensFrom i ts →
      ∃ j t, f = handle_new_key ⟨t⟩ j := by
  induction ts with
  | nil => intro i h; simp [nameTokensFrom] at h
  | cons t ts ih =>
    intro i h
    rw [nameTokensFrom] at h
    rcases List.mem_cons.mp h with he | hm
    · exact ⟨i, t, he⟩
    · exact ih (i + 1) hm

/-! Lemmas about field-name resolution. -/

theorem get_value_field_lt (fields : List String) (i : Nat)
    (h : i < fields.length) :
    get_value_field fields i = fields.get ⟨i, h⟩ := by
  unfold get_value_field
  rw [List.get?_eq_get h]
  rfl

theorem get_value_field_ge (fields : List String) (i : Nat)
    (h : fields.length ≤ i) :
    get_value_field fields i = "__" ++ natToStr (i + 1) := by
  unfold get_value_field
  rw [List.get?_eq_none.mpr h]
  rfl

/-! Decomposition of sign-and-digits strings. -/

theorem bnot_isEmpty_of_ne (l : List Char) (h : l ≠ []) :
    (!l.isEmpty) = true := by
  cases l with
  | nil => exact absurd rfl h
  | cons c cs => rfl

theorem signDigits_decomp (t : String) (sgn : String) (ds : List Char)
    (hsgn : sgn = "" ∨ sgn = "+" ∨ sgn = "-") (hne : ds ≠ [])
    (hall : ds.all isAsciiDigit = true) (hdata : t.data = sgn.data ++ ds) :
    stripSign t.data = ds ∧
    signDigitsVal t =
      (if sgn = "-" then (-1 : Int) else 1) * (digitsToNat ds : Int) ∧
    signDigitsShape t = true := by
  rcases hsgn with h0 | h0 | h0 <;> subst h0
  · have hd : t.data = ds := hdata.trans (by rfl)
    have hstrip : stripSign t.data = ds := by
      rw [hd]
      exact stripSign_of_digits ds hne hall
    have hhead : ¬ t.data.head? = some '-' := by
      rw [hd]
      cases ds with
      | nil => exact absurd rfl hne
      | cons c cs =>
        intro hc
        have hdig : isAsciiDigit c = true := by
          simp at hall
          exact hall.1
        exact digit_ne_minus c hdig (Option.some.inj hc)
    refine ⟨hstrip, ?_, ?_⟩
    · unfold signDigitsVal
      rw [hstrip, if_neg hhead, if_neg (by decide : ¬ ("" : String) = "-")]
    · show (!(stripSign t.data).isEmpty &&
        (stripSign t.data).all isAsciiDigit) = true
      rw [hstrip, bnot_isEmpty_of_ne ds hne, hall]
      rfl
  · have hd : t.data = '+' :: ds := hdata.trans (by rfl)
    have hstrip : stripSign t.data = ds := by
      unfold stripSign
      rw [hd, if_pos (Or.inl List.head?_cons)]
      rfl
    have hhead : ¬ t.data.head? = some '-' := by
      rw [hd]
      intro hc
      exact absurd (Option.some.inj hc) (by decide)
    refine ⟨hstrip, ?_, ?_⟩
    · unfold signDigitsVal
      rw [hstrip, if_neg hhead, if_neg (by decide : ¬ ("+" : String) = "-")]
    · show (!(stripSign t.data).isEmpty &&
        (stripSign t.data).all isAsciiDigit) = true
      rw [hstrip, bnot_isEmpty_of_ne ds hne, hall]
      rfl
  · have hd : t.data = '-' :: ds := hdata.trans (by rfl)
    have hstrip : stripSign t.data = ds := by
      unfold stripSign
      rw [hd, if_pos (Or.inr List.head?_cons)]
      rfl
    have hhead : t.data.head? = some '-' := by
      rw [hd]
      rfl
    refine ⟨hstrip, ?_, ?_⟩
    · unfold signDigitsVal
      rw [hstrip, if_pos hhead, if_pos (rfl : ("-" : String) = "-")]
    · show (!(stripSign t.data).isEmpty &&
        (stripSign t.data).all isAsciiDigit) = true
      rw [hstrip, bnot_isEmpty_of_ne ds hne, hall]
      rfl

theorem signDigits_decomp_exists (t : String)
    (hne : stripSign t.data ≠ [])
    (hall : (stripSign t.data).all isAsciiDigit = true) :
    ∃ (sgn : String) (ds : List Char),
      (sgn = "" ∨ sgn = "+" ∨ sgn = "-") ∧ ds ≠ [] ∧
      ds.all isAsciiDigit = true ∧ t.data = sgn.data ++ ds := by
  cases hl : t.data with
  | nil =>
    rw [hl] at hne
    exact absurd (by decide) hne
  | cons c cs =>
    by_cases hp : c = '+'
    · subst hp
      have hstrip : stripSign t.data = cs := by
        unfold stripSign
        rw [hl, if_pos (Or.inl List.head?_cons)]
        rfl
      rw [hstrip] at hne hall
      exact ⟨"+", cs, Or.inr (Or.inl rfl), hne, hall, rfl⟩
    · by_cases hm : c = '-'
      · subst hm
        have hstrip : stripSign t.data = cs := by
          unfold stripSign
          rw [hl, if_pos (Or.inr List.head?_cons)]
          rfl
        rw [hstrip] at hne hall
        exact ⟨"-", cs, Or.inr (Or.inr rfl), hne, hall, rfl⟩
      · have hstrip : stripSign t.data = c :: cs := by
          unfold stripSign
          rw [hl, if_neg]
          intro hor
          rcases hor with h1 | h1
          · exact hp (Option.some.inj h1)
          · exact hm (Option.some.inj h1)
        rw [hstrip] at hall
        exact ⟨"", c :: cs, Or.inl rfl, by simp, hall, rfl⟩

/-! The claims. -/

/-- C1, corrected.  Header line selection: scanning lines in order, the FIRST
line that contains at least one separator character becomes the header line;
every line without a separator, empty or not, is skipped.  The chosen line
tokenizes into its separator-delimited cells, the cell at position i being
named from its trimmed content, or synthetically when blank.  (The original
claim said a non-empty line with no separator becomes a one-field header;
the code skips such a line, see the counterexample.) -/
theorem claim1_header_selection :
    ∀ (sep : Char) (lines : List String),
      parse_header sep lines = headerSpec sep lines :=
  parse_header_eq_headerSpec

/-- C1 counterexample: the non-empty line with no separator is not taken as
a one-field header; it is skipped and no header is found. -/
theorem claim1_counterexample :
    rustTrim "x" ≠ "" ∧ parse_header ',' ["x"] = (none, []) ∧
    parse_header ',' ["x"] ≠ (some ["x"], ([] : List String)) := by
  decide

/-- C2, corrected.  The header scanner returns no header exactly when no
line of the input contains the separator character (not: when no line is
non-blank); whenever no header is found, parse_csv returns the empty
sequence of rows. -/
theorem claim2_no_header :
    (∀ (sep : Char) (lines : List String),
      (parse_header sep lines).1 = none ↔
        ∀ line ∈ lines, sep ∉ line.data) ∧
    (∀ (input : String) (sep : Char),
      (parse_header sep (rustLines input)).1 = none →
        parse_csv input sep = []) := by
  constructor
  · intro sep lines
    rw [parse_header_eq_headerSpec]
    exact headerSpec_none_iff sep lines
  · exact parse_csv_of_none

/-- C2 witness at concrete inputs. -/
theorem claim2_witness :
    (parse_header ',' ["ab", "cd"]).1 = none ∧ parse_csv "ab" ',' = [] :=
  ⟨(claim2_no_header.1 ',' ["ab", "cd"]).mpr (by decide),
   claim2_no_header.2 "ab" ',' (by decide)⟩

/-- C2 counterexample: an input consisting of one non-blank line with no
separator yields no header, contradicting the claim that a header is found
for every input with at least one non-blank line. -/
theorem claim2_counterexample :
    rustTrim "a" ≠ "" ∧ "a" ∈ rustLines "a" ∧
    (parse_header ',' (rustLines "a")).1 = none ∧
    parse_csv "a" ',' = [] := by
  decide

/-- C3, corrected.  Integer classification grammar: a string classifies as
Integer with value n exactly when its trimmed form is an optional leading
plus or minus sign followed by one or more ASCII digits, n is the signed
decimal value of those digits, and n fits the signed 64-bit range.  (The
original claim excluded a leading plus sign; Rust i64 parsing accepts it,
see the counterexample.) -/
theorem claim3_integer_grammar (s : String) (n : Int) :
    parse_value s = some (CsvValue.Integer n) ↔
      ∃ (sgn : String) (ds : List Char),
        (sgn = "" ∨ sgn = "+" ∨ sgn = "-") ∧ ds ≠ [] ∧
        ds.all isAsciiDigit = true ∧ (rustTrim s).data = sgn.data ++ ds ∧
        n = (if sgn = "-" then (-1 : Int) else 1) * (digitsToNat ds : Int) ∧
        -(2 : Int) ^ 63 ≤ n ∧ n ≤ 2 ^ 63 - 1 := by
  constructor
  · intro h
    have hp := (parse_value_int_iff s n).mp h
    obtain ⟨hne, hall, hval, h1, h2⟩ := parseI64_some_inv _ n hp
    obtain ⟨sgn, ds, hsgn, hdne, hdall, hdata⟩ :=
      signDigits_decomp_exists (rustTrim s) hne hall
    obtain ⟨hstrip, hv2, hshape⟩ :=
      signDigits_decomp (rustTrim s) sgn ds hsgn hdne hdall hdata
    exact ⟨sgn, ds, hsgn, hdne, hdall, hdata, hval.trans hv2, h1, h2⟩
  · rintro ⟨sgn, ds, hsgn, hdne, hdall, hdata, hn, h1, h2⟩
    obtain ⟨hstrip, hv2, hshape⟩ :=
      signDigits_decomp (rustTrim s) sgn ds hsgn hdne hdall hdata
    apply (parse_value_int_iff s n).mpr
    have hv3 : signDigitsVal (rustTrim s) = n := by rw [hv2, ← hn]
    rw [parseI64_of_inrange (rustTrim s) hshape (by rw [hv3]; exact h1)
      (by rw [hv3]; exact h2), hv3]

/-- C3 witness at a concrete input. -/
theorem claim3_witness :
    parse_value " -405 " = some (CsvValue.Integer (-405)) :=
  (claim3_integer_grammar " -405 " (-405)).mpr
    ⟨"-", ['4', '0', '5'], Or.inr (Or.inr rfl), by decide, by decide,
      by decide, by decide, by decide, by decide⟩

/-- C3 counterexample: a trimmed string with a leading plus sign is
classified Integer, contradicting the claim that it must not be. -/
theorem claim3_counterexample :
    (rustTrim "+7").data.head? = some '+' ∧
    parse_value "+7" = some (CsvValue.Integer 7) := by
  decide

/-- C4, confirmed.  Classification order and totality: every non-blank
trimmed string classifies to some value (never an error); integer-formatted
strings classify Integer, never Float or Text; strings in decimal or
exponent float notation never fall through to Text; the string 0.0
classifies Float; and a sign-and-digits string whose value overflows the
signed 64-bit range falls through to Float. -/
theorem claim4_classification_order :
    (∀ s : String, rustTrim s ≠ "" → ∃ v, parse_value s = some v) ∧
    (∀ s : String, specIntFormat (rustTrim s) = true →
      ∃ n, parse_value s = some (CsvValue.Integer n)) ∧
    (∀ s : String, specDecimalExpFormat (rustTrim s) = true →
      ((∃ n, parse_value s = some (CsvValue.Integer n)) ∨
        parse_value s = some (CsvValue.Float (rustTrim s)))) ∧
    parse_value "0.0" = some (CsvValue.Float "0.0") ∧
    (∀ s : String, signDigitsShape (rustTrim s) = true →
      (signDigitsVal (rustTrim s) < -(2 : Int) ^ 63 ∨
        (2 : Int) ^ 63 - 1 < signDigitsVal (rustTrim s)) →
      parse_value s = some (CsvValue.Float (rustTrim s))) := by
  refine ⟨parse_value_isSome, ?_, ?_, by decide, ?_⟩
  · intro s h
    exact ⟨signDigitsVal (rustTrim s),
      (parse_value_int_iff s _).mpr (specIntFormat_parseI64 _ h)⟩
  · intro s h
    have he : rustTrim s ≠ "" := by
      intro he
      rw [he] at h
      exact absurd h (by decide)
    cases hp : parseI64 (rustTrim s) with
    | some n => exact Or.inl ⟨n, (parse_value_int_iff s n).mpr hp⟩
    | none =>
      exact Or.inr (parse_value_float_pos s he hp
        (specDecimalExpFormat_f64Accepts _ h))
  · intro s hs hover
    have he : rustTrim s ≠ "" := by
      intro he
      rw [he] at hs
      exact absurd hs (by decide)
    exact parse_value_float_pos s he (parseI64_none_of_overflow _ hs hover)
      (signDigitsShape_f64Accepts _ hs)

/-- C4 witness at concrete inputs. -/
theorem claim4_witness :
    (∃ v, parse_value " a " = some v) ∧
    (∃ n, parse_value "-42" = some (CsvValue.Integer n)) ∧
    ((∃ n, parse_value "2.5" = some (CsvValue.Integer n)) ∨
      parse_value "2.5" = some (CsvValue.Float "2.5")) ∧
    parse_value "9223372036854775808" =
      some (CsvValue.Float "9223372036854775808") :=
  ⟨claim4_classification_order.1 " a " (by decide),
   claim4_classification_order.2.1 "-42" (by decide),
   claim4_classification_order.2.2.1 "2.5" (by decide),
   claim4_classification_order.2.2.2.2 "9223372036854775808" (by decide)
     (Or.inr (by decide))⟩

/-- C5, confirmed.  Field name resolution: the resolved name at position i
is the header entry when i is within the header, and the synthetic name for
position i plus one otherwise; consequently a row with fewer tokens than
the header lacks the trailing header fields in its mapping (absent
duplicate names), and a row with more tokens gets synthetic names for the
extra positions. -/
theorem claim5_field_resolution :
    (∀ (fields : List String) (i : Nat) (h : i < fields.length),
      get_value_field fields i = fields.get ⟨i, h⟩) ∧
    (∀ (fields : List String) (i : Nat), fields.length ≤ i →
      get_value_field fields i = "__" ++ natToStr (i + 1)) ∧
    (∀ (line : String) (sep : Char) (fields : List String) (j : Nat)
      (hj : j < fields.length),
      (splitSep sep line.data).length ≤ j →
      (∀ i, i < (splitSep sep line.data).length →
        get_value_field fields i ≠ fields.get ⟨j, hj⟩) →
      lookupKV (parse_value_line line sep fields) (fields.get ⟨j, hj⟩) =
        none) ∧
    (∀ (line : String) (sep : Char) (fields : List String) (i : Nat)
      (hi : i < (splitSep sep line.data).length), fields.length ≤ i →
      (parse_value ⟨(splitSep sep line.data).get ⟨i, hi⟩⟩).isSome = true →
      ("__" ++ natToStr (i + 1)) ∈
        keysOf (parse_value_line line sep fields)) := by
  refine ⟨get_value_field_lt, get_value_field_ge, ?_, ?_⟩
  · intro line sep fields j hj hlen hne
    rw [parse_value_line_eq,
      buildRowP_lookup_unchanged fields (fields.get ⟨j, hj⟩) _ []
        (fun q hq heq => absurd heq (hne q.1
          (by have := mem_enumFrom _ 0 q hq; omega)))]
    rfl
  · intro line sep fields i hi hlen hsome
    rw [parse_value_line_eq]
    refine (mem_keysOf_buildRowP fields _ _ []).mpr (Or.inr
      ⟨(i, (splitSep sep line.data).get ⟨i, hi⟩), ?_, hsome,
        get_value_field_ge fields i hlen⟩)
    have := enumFrom_get_mem (splitSep sep line.data) 0 i hi
    simpa using this

/-- C5 witness at concrete inputs. -/
theorem claim5_witness :
    get_value_field ["a", "b"] 1 = "b" ∧
    get_value_field ["a", "b"] 5 = "__6" ∧
    lookupKV (parse_value_line "7" ',' ["a", "b"]) "b" = none ∧
    "__3" ∈ keysOf (parse_value_line "1,2,3" ',' ["a", "b"]) := by
  refine ⟨?_, ?_, ?_, ?_⟩
  · rw [claim5_field_resolution.1 ["a", "b"] 1 (by decide)]
    rfl
  · rw [claim5_field_resolution.2.1 ["a", "b"] 5 (by decide)]
    decide
  · exact claim5_field_resolution.2.2.1 "7" ',' ["a", "b"] 1 (by decide)
      (by decide)
      (by
        intro i hi
        have hi0 : i = 0 := by
          have : (splitSep ',' ("7" : String).data).length = 1 := by decide
          omega
        subst hi0
        decide)
  · exact claim5_field_resolution.2.2.2 "1,2,3" ',' ["a", "b"] 2 (by decide)
      (by decide) (by decide)

/-- C6, confirmed.  Orchestrator row accounting: once a header is found,
the remaining lines are processed in order, blank lines are skipped, and
every non-blank line yields exactly one row, so the output is the in-order
image of the non-blank remaining lines and its length is their count. -/
theorem claim6_row_accounting (input : String) (sep : Char)
    (fields : List String) (rest : List String)
    (h : parse_header sep (rustLines input) = (some fields, rest)) :
    parse_csv input sep =
      (rest.filter (fun l => decide (rustTrim l ≠ ""))).map
        (fun l => parse_value_line (rustTrim l) sep fields) ∧
    (parse_csv input sep).length =
      (rest.filter (fun l => decide (rustTrim l ≠ ""))).length := by
  have h1 := parse_csv_rows input sep fields rest h
  refine ⟨h1, ?_⟩
  rw [h1, List.length_map]

/-- C6 witness at a concrete input. -/
theorem claim6_witness :
    parse_csv "a,b\n1,2\n\n  \nx,y" ',' =
      [[("a", CsvValue.Integer 1), ("b", CsvValue.Integer 2)],
       [("a", CsvValue.Text "x"), ("b", CsvValue.Text "y")]] ∧
    (parse_csv "a,b\n1,2\n\n  \nx,y" ',').length = 2 := by
  have h := claim6_row_accounting "a,b\n1,2\n\n  \nx,y" ',' ["a", "b"]
    ["1,2", "", "  ", "x,y"] (by decide)
  constructor
  · rw [h.1]
    decide
  · rw [h.2]
    decide

/-- C7, confirmed.  Absent cells: a string whose trimmed form is empty
classifies as absent; the row scanner builds the row only from the tokens
whose classification is not absent, and a name to which only absent tokens
resolve is not bound in the row mapping at all. -/
theorem claim7_absent_cells :
    (∀ s : String, rustTrim s = "" → parse_value s = none) ∧
    (∀ (line : String) (sep : Char) (fields : List String),
      parse_value_line line sep fields =
        buildRowP fields []
          ((enumFrom 0 (splitSep sep line.data)).filter
            (fun q => (parse_value ⟨q.2⟩).isSome))) ∧
    (∀ (line : String) (sep : Char) (fields : List String) (k : String),
      (∀ q ∈ enumFrom 0 (splitSep sep line.data),
        get_value_field fields q.1 = k → parse_value ⟨q.2⟩ = none) →
      lookupKV (parse_value_line line sep fields) k = none) := by
  refine ⟨parse_value_blank, ?_, ?_⟩
  · intro line sep fields
    rw [parse_value_line_eq, buildRowP_filter_isSome]
  · intro line sep fields k h
    rw [parse_value_line_eq, buildRowP_lookup_unchanged fields k _ [] h]
    rfl

/-- C7 witness at concrete inputs. -/
theorem claim7_witness :
    parse_value "   " = none ∧
    parse_value_line "1,,2" ',' ["a", "b", "c"] =
      buildRowP ["a", "b", "c"] []
        ((enumFrom 0 (splitSep ',' ("1,,2" : String).data)).filter
          (fun q => (parse_value ⟨q.2⟩).isSome)) ∧
    lookupKV (parse_value_line "1,,2" ',' ["a", "b", "c"]) "b" = none :=
  ⟨claim7_absent_cells.1 "   " (by decide),
   claim7_absent_cells.2.1 "1,,2" ',' ["a", "b", "c"],
   claim7_absent_cells.2.2 "1,,2" ',' ["a", "b", "c"] "b" (by decide)⟩

/-- C8, corrected.  Text fallback: a non-blank trimmed string that is
neither integer-formatted nor accepted by the float parser classifies as
Text holding exactly the trimmed string; the float parser accepts standard
decimal/exponent notation and also the case-insensitive special values
inf, infinity and nan, which the original claim did not exclude (see the
counterexample). -/
theorem claim8_text_fallback (s : String) (he : rustTrim s ≠ "")
    (_hint : specIntFormat (rustTrim s) = false)
    (hdec : specDecimalExpFormat (rustTrim s) = false)
    (hkey : isFloatKeyword (stripSign (rustTrim s).data) = false) :
    parse_value s = some (CsvValue.Text (rustTrim s)) := by
  have hp : parseI64 (rustTrim s) = none := by
    cases hp : parseI64 (rustTrim s) with
    | none => rfl
    | some n =>
      have := parseI64_some_specDecimal _ n hp
      rw [hdec] at this
      cases this
  have hf : f64Accepts (rustTrim s) = false := by
    show (isFloatKeyword (stripSign (rustTrim s).data) ||
      isNumberBody (stripSign (rustTrim s).data)) = false
    unfold specDecimalExpFormat at hdec
    rw [hkey, hdec]
    rfl
  exact parse_value_text_pos s he hp hf

/-- C8 witness at a concrete input. -/
theorem claim8_witness : parse_value " abc " = some (CsvValue.Text "abc") :=
  claim8_text_fallback " abc " (by decide) (by decide) (by decide)
    (by decide)

/-- C8 counterexample: the string NaN is non-blank, not integer-formatted
and not in decimal/exponent notation, yet it classifies as Float rather
than Text, because the float parser accepts the special value nan. -/
theorem claim8_counterexample :
    rustTrim "NaN" = "NaN" ∧ specIntFormat "NaN" = false ∧
    specDecimalExpFormat "NaN" = false ∧
    parse_value "NaN" = some (CsvValue.Float "NaN") ∧
    parse_value "NaN" ≠ some (CsvValue.Text "NaN") := by
  decide

/-- A header produced by parse_header consists of entries made by
handle_new_key, hence each is non-empty and trim-fixed. -/
theorem header_field_props (sep : Char) (input : String)
    (fields : List String) (rest : List String)
    (hph : parse_header sep (rustLines input) = (some fields, rest))
    (f : String) (hf : f ∈ fields) : f ≠ "" ∧ rustTrim f = f := by
  rw [parse_header_eq_headerSpec] at hph
  obtain ⟨hl, hmem, heq⟩ := headerSpec_some_inv _ _ _ _ hph
  rw [heq] at hf
  obtain ⟨j, t2, hf2⟩ := mem_nameTokensFrom f _ 0 hf
  rw [hf2]
  exact ⟨(handle_new_key_props _ _).1, (handle_new_key_props _ _).2.1⟩

/-- C9, confirmed (implicit).  Key-form invariant: every key in every row
mapping returned by parse_csv is a non-empty string fixed by trimming, and
is either an entry of the header or a synthetic name for some 1-based
position. -/
theorem claim9_key_invariant (input : String) (sep : Char)
    (row : List (String × CsvValue)) (p : String × CsvValue)
    (hrow : row ∈ parse_csv input sep) (hp : p ∈ row) :
    p.1 ≠ "" ∧ rustTrim p.1 = p.1 ∧
    ∀ fields rest,
      parse_header sep (rustLines input) = (some fields, rest) →
      (p.1 ∈ fields ∨ ∃ n, 1 ≤ n ∧ p.1 = "__" ++ natToStr n) := by
  obtain ⟨fields, rest, line, hph, hline, hbl, hroweq⟩ :=
    mem_parse_csv input sep row hrow
  subst hroweq
  rw [parse_value_line_eq] at hp
  rcases mem_buildRowP fields p _ [] hp with h0 | ⟨q, hq, hv, hk⟩
  · cases h0
  · by_cases hlt : q.1 < fields.length
    · rw [get_value_field_lt fields q.1 hlt] at hk
      have hmem : p.1 ∈ fields := by
        rw [hk]
        exact List.get_mem fields q.1 hlt
      have hprops := header_field_props sep input fields rest hph p.1 hmem
      refine ⟨hprops.1, hprops.2, ?_⟩
      intro fields2 rest2 hph2
      rw [hph] at hph2
      have hf2 : fields2 = fields := by
        have := (Prod.mk.injEq _ _ _ _).mp hph2
        have h3 := this.1
        simp at h3
        rw [h3]
      rw [hf2]
      exact Or.inl hmem
    · rw [get_value_field_ge fields q.1 (by omega)] at hk
      rw [hk]
      refine ⟨synthetic_ne_empty _, synthetic_trimmed _, ?_⟩
      intro fields2 rest2 hph2
      exact Or.inr ⟨q.1 + 1, by omega, rfl⟩

/-- C9 witness at a concrete input. -/
theorem claim9_witness : ("a" : String) ≠ "" ∧ rustTrim "a" = "a" := by
  have h := claim9_key_invariant "a,b\n1,2" ','
    [("a", CsvValue.Integer 1), ("b", CsvValue.Integer 2)]
    ("a", CsvValue.Integer 1) (by decide) (by decide)
  exact ⟨h.1, h.2.1⟩

/-- C10, confirmed (implicit).  Text-value invariant: every Text value in
any row mapping returned by parse_csv holds a non-empty string with no
leading or trailing whitespace. -/
theorem claim10_text_invariant (input : String) (sep : Char)
    (row : List (String × CsvValue)) (p : String × CsvValue) (t : String)
    (hrow : row ∈ parse_csv input sep) (hp : p ∈ row)
    (ht : p.2 = CsvValue.Text t) : t ≠ "" ∧ rustTrim t = t := by
  obtain ⟨fields, rest, line, hph, hline, hbl, hroweq⟩ :=
    mem_parse_csv input sep row hrow
  subst hroweq
  rw [parse_value_line_eq] at hp
  rcases mem_buildRowP fields p _ [] hp with h0 | ⟨q, hq, hv, hk⟩
  · cases h0
  · rw [ht] at hv
    obtain ⟨heq, hne⟩ := parse_value_text_inv _ t hv
    refine ⟨?_, ?_⟩
    · rw [heq]
      exact hne
    · rw [heq, rustTrim_idem]

/-- C10 witness at a concrete input. -/
theorem claim10_witness : ("x" : String) ≠ "" ∧ rustTrim "x" = "x" :=
  claim10_text_invariant "a,b\nx,2" ','
    [("a", CsvValue.Text "x"), ("b", CsvValue.Integer 2)]
    ("a", CsvValue.Text "x") "x" (by decide) (by decide) (by decide)

end CsvSpec
